import Mathlib

/-!
# Verification of the tensorl PPO codebase

Shallow embedding, in Lean 4, of the parts of the repository
(`src/ppo/ppo_hproj.py` and `src/common/approximators.py`) needed to settle
the specification claims: the entropy-constrained Gaussian policy scale,
the generalized-advantage-estimation recursion, the approximator family
(construction, reset, feature dimensions, scope sharing), advantage
normalization, the action-bound assertion, and the per-iteration structure
of the training loop.

Floating-point arithmetic is modelled over `ℝ`; exact float comparisons and
registry bookkeeping are modelled over decidable types.
-/

open scoped BigOperators

namespace Tensorl

/-! ## Entropy-constrained Gaussian policy scale (`ppo_hproj.py`, pi_std block)

The source builds, for action dimensionality `act_size = d` and raw positive
scale parameters `l`:

  `h   = d/2 * log(2*pi*e) + sum(log l) - beta`
  `std = exp(max(log l, log l - h / d))`

and the closed-form differential entropy of the induced independent Gaussian
with per-dimension standard deviations `std` is
`d/2 * log(2*pi*e) + sum(log std)`. -/

/-- The constant `log(2*pi*e)` appearing in the Gaussian entropy formula. -/
noncomputable def logTwoPiE : ℝ := Real.log (2 * Real.pi * Real.exp 1)

/-- Unconstrained closed-form differential entropy of an independent Gaussian
with per-dimension scales `l`: `0.5*d*log(2*pi*e) + Σ_i log l_i`. -/
noncomputable def unconstrainedEntropy (d : ℕ) (l : Fin d → ℝ) : ℝ :=
  (d : ℝ) / 2 * logTwoPiE + ∑ i, Real.log (l i)

/-- The slack tensor `h` of the source, which already subtracts `beta`:
`h = d/2*log(2πe) + Σ log l_i - beta`. -/
noncomputable def hSlack (d : ℕ) (l : Fin d → ℝ) (beta : ℝ) : ℝ :=
  unconstrainedEntropy d l - beta

/-- The clamped per-dimension standard deviation actually used by the policy:
`std_i = exp(max(log l_i, log l_i - h/d))` (inequality constraint). -/
noncomputable def clampedStd (d : ℕ) (l : Fin d → ℝ) (beta : ℝ) (i : Fin d) : ℝ :=
  Real.exp (max (Real.log (l i)) (Real.log (l i) - hSlack d l beta / (d : ℝ)))

/-- Closed-form differential entropy of an independent Gaussian with
per-dimension standard deviations `std`. -/
noncomputable def gaussianEntropy (d : ℕ) (std : Fin d → ℝ) : ℝ :=
  (d : ℝ) / 2 * logTwoPiE + ∑ i, Real.log (std i)

theorem log_clampedStd (d : ℕ) (l : Fin d → ℝ) (beta : ℝ) (i : Fin d) :
    Real.log (clampedStd d l beta i)
      = max (Real.log (l i)) (Real.log (l i) - hSlack d l beta / (d : ℝ)) :=
  Real.log_exp _

/-- **C1.** For every action dimensionality `d ≥ 1`, every vector of positive
raw scale parameters `l`, and every `beta`, the closed-form differential
entropy of the Gaussian with the clamped scale
`std_i = exp(max(log l_i, log l_i - (h - beta)/d))` is at least `beta`:
the realized policy entropy never falls below the entropy floor. -/
theorem realized_entropy_ge_beta (d : ℕ) (hd : 1 ≤ d) (l : Fin d → ℝ)
    (_hl : ∀ i, 0 < l i) (beta : ℝ) :
    beta ≤ gaussianEntropy d (clampedStd d l beta) := by
  have hd0 : (d : ℝ) ≠ 0 := Nat.cast_ne_zero.mpr (by omega)
  have hterm : ∀ i : Fin d,
      Real.log (l i) - hSlack d l beta / (d : ℝ) ≤ Real.log (clampedStd d l beta i) := by
    intro i
    rw [log_clampedStd]
    exact le_max_right _ _
  have hsum : ∑ i : Fin d, (Real.log (l i) - hSlack d l beta / (d : ℝ))
      ≤ ∑ i, Real.log (clampedStd d l beta i) :=
    Finset.sum_le_sum fun i _ => hterm i
  have hleft : ∑ i : Fin d, (Real.log (l i) - hSlack d l beta / (d : ℝ))
      = (∑ i, Real.log (l i)) - hSlack d l beta := by
    rw [Finset.sum_sub_distrib, Finset.sum_const, Finset.card_univ, Fintype.card_fin,
      nsmul_eq_mul]
    field_simp
  have hgoal : (∑ i, Real.log (l i)) - hSlack d l beta
      ≤ ∑ i, Real.log (clampedStd d l beta i) := hleft ▸ hsum
  unfold gaussianEntropy
  unfold hSlack unconstrainedEntropy at hgoal
  linarith

/-- Concrete instantiation of `realized_entropy_ge_beta` at `d = 1`,
`l = 1`, `beta = 0`. -/
theorem realized_entropy_ge_beta_witness :
    1 ≤ 1 ∧ (∀ i : Fin 1, (0 : ℝ) < (fun _ => (1 : ℝ)) i) ∧
      (0 : ℝ) ≤ gaussianEntropy 1 (clampedStd 1 (fun _ => (1 : ℝ)) 0) :=
  ⟨le_refl 1, fun _ => one_pos,
    realized_entropy_ge_beta 1 (le_refl 1) (fun _ => (1 : ℝ)) (fun _ => one_pos) 0⟩

/-! ## Generalized advantage estimation

The `gae` helper is imported by `ppo_hproj.py` from the `common` package but
its definition is not under `src/`; it is modelled here from the spec
(section 4.2). A trajectory batch is a list of episodes; each episode step
carries the pair `(r_t, V(s_t))` of its reward and value estimate. -/

/-- Modelled from the spec: the per-episode backward recursion of the `gae`
function (defined in the `common` package, whose source is not under `src/`).
For each episode independently, traversing steps in reverse chronological
order with accumulator initialized to 0 at the final step:
`δ_t = r_t + γ·V(s_{t+1}) - V(s_t)` (with `V(s_{t+1}) = 0` for the terminal
step) and `A_t = δ_t + γλ·A_{t+1}`. -/
def gaeEpisode (g lam : ℝ) : List (ℝ × ℝ) → List ℝ
  | [] => []
  | (r, v) :: rest =>
    let tail := gaeEpisode g lam rest
    let vNext : ℝ := match rest with | [] => 0 | (_, v2) :: _ => v2
    let aNext : ℝ := match tail with | [] => 0 | a :: _ => a
    (r + g * vNext - v + g * lam * aNext) :: tail

/-- The one-step TD residual sequence of an episode:
`δ_t = r_t + γ·V(s_{t+1}) - V(s_t)`, with `V(s_{t+1}) = 0` at the terminal
step of the episode. -/
def tdResidualEpisode (g : ℝ) : List (ℝ × ℝ) → List ℝ
  | [] => []
  | (r, v) :: rest =>
    let vNext : ℝ := match rest with | [] => 0 | (_, v2) :: _ => v2
    (r + g * vNext - v) :: tdResidualEpisode g rest

/-- Modelled from the spec: `gae` over a whole trajectory batch applies the
backward recursion to each episode independently and returns the advantages
aligned with the trajectory. -/
def gae (paths : List (List (ℝ × ℝ))) (g lam : ℝ) : List ℝ :=
  (paths.map (gaeEpisode g lam)).flatten

theorem gaeEpisode_zero_lam (g : ℝ) (ep : List (ℝ × ℝ)) :
    gaeEpisode g 0 ep = tdResidualEpisode g ep := by
  induction ep with
  | nil => rfl
  | cons hd tl ih =>
    obtain ⟨r, v⟩ := hd
    simp only [gaeEpisode, tdResidualEpisode, ih, mul_zero, zero_mul, add_zero]

/-- **C2.** For every trajectory batch (rewards, episode boundaries, value
estimates encoded as a list of episodes of `(r_t, V(s_t))` pairs) and any
`γ ∈ [0,1)`, the `gae` computation with trace-decay `λ = 0` returns, at every
step, exactly the one-step TD residual `r_t + γ·V(t+1) - V(t)`, with
`V(t+1) = 0` at the terminal step of each episode. -/
theorem gae_lam_zero_is_td (paths : List (List (ℝ × ℝ))) (g : ℝ)
    (_hg0 : 0 ≤ g) (_hg1 : g < 1) :
    gae paths g 0 = (paths.map (tdResidualEpisode g)).flatten := by
  unfold gae
  congr 1
  exact List.map_congr_left fun ep _ => gaeEpisode_zero_lam g ep

/-- Concrete instantiation of `gae_lam_zero_is_td` at `γ = 1/2` on a batch of
two episodes. -/
theorem gae_lam_zero_is_td_witness :
    (0 : ℝ) ≤ 1 / 2 ∧ (1 : ℝ) / 2 < 1 ∧
      gae [[(1, 2), (3, 4)], [(5, 6)]] (1 / 2) 0
        = ([[(1, 2), (3, 4)], [(5, 6)]].map (tdResidualEpisode (1 / 2))).flatten :=
  ⟨le_of_lt one_half_pos, one_half_lt_one,
    gae_lam_zero_is_td [[(1, 2), (3, 4)], [(5, 6)]] (1 / 2)
      (le_of_lt one_half_pos) one_half_lt_one⟩

/-! ## Advantage normalization (`ppo_hproj.py`, line
`a_values = (a_values - np.mean(a_values)) / np.std(a_values)`) -/

/-- `np.mean` over a flat array of `n` scalars. -/
noncomputable def npMean (n : ℕ) (a : Fin n → ℝ) : ℝ := (∑ i, a i) / n

/-- `np.std` (population standard deviation, numpy's default `ddof = 0`). -/
noncomputable def npStd (n : ℕ) (a : Fin n → ℝ) : ℝ :=
  Real.sqrt ((∑ i, (a i - npMean n a) ^ 2) / n)

/-- The advantage normalization of the training loop:
`(a - np.mean(a)) / np.std(a)`, with no guard on `np.std(a) = 0`. -/
noncomputable def normalizeAdv (n : ℕ) (a : Fin n → ℝ) : Fin n → ℝ :=
  fun i => (a i - npMean n a) / npStd n a

theorem sum_sub_mean (n : ℕ) (hn : 1 ≤ n) (a : Fin n → ℝ) :
    ∑ i, (a i - npMean n a) = 0 := by
  have hnR : (0 : ℝ) < n := by exact_mod_cast Nat.pos_of_ne_zero (by omega)
  rw [Finset.sum_sub_distrib, Finset.sum_const, Finset.card_univ, Fintype.card_fin,
    nsmul_eq_mul]
  unfold npMean
  field_simp

/-- **C6.** The advantage array fed to the policy loss is
`(a - mean a) / std a`; whenever the batch standard deviation is nonzero the
normalized array has zero mean and unit standard deviation (when it is zero,
`normalizeAdv` divides by zero unguarded, as its definition shows). -/
theorem normalizeAdv_mean_zero_std_one (n : ℕ) (hn : 1 ≤ n) (a : Fin n → ℝ)
    (hstd : npStd n a ≠ 0) :
    npMean n (normalizeAdv n a) = 0 ∧ npStd n (normalizeAdv n a) = 1 := by
  have hnR : (0 : ℝ) < n := by exact_mod_cast Nat.pos_of_ne_zero (by omega)
  have hv0 : 0 ≤ (∑ i, (a i - npMean n a) ^ 2) / n := by positivity
  have hspos : 0 < npStd n a :=
    lt_of_le_of_ne (Real.sqrt_nonneg _) (Ne.symm hstd)
  have hvpos : 0 < (∑ i, (a i - npMean n a) ^ 2) / n := Real.sqrt_pos.mp hspos
  have hSpos : 0 < ∑ i, (a i - npMean n a) ^ 2 := by
    have h := mul_pos hvpos hnR
    rwa [div_mul_cancel₀ _ (ne_of_gt hnR)] at h
  have hmean : npMean n (normalizeAdv n a) = 0 := by
    unfold npMean normalizeAdv
    rw [← Finset.sum_div, sum_sub_mean n hn a]
    simp
  refine ⟨hmean, ?_⟩
  have hsq : npStd n a ^ 2 = (∑ i, (a i - npMean n a) ^ 2) / n :=
    Real.sq_sqrt hv0
  have hinner : ∑ i, (normalizeAdv n a i - npMean n (normalizeAdv n a)) ^ 2
      = (∑ i, (a i - npMean n a) ^ 2) / npStd n a ^ 2 := by
    rw [hmean]
    simp only [sub_zero, normalizeAdv, div_pow]
    rw [← Finset.sum_div]
  have harg : ((∑ i, (a i - npMean n a) ^ 2) / npStd n a ^ 2) / n = 1 := by
    rw [hsq]
    field_simp
  unfold npStd
  rw [hinner, harg, Real.sqrt_one]

theorem npStd_pair_zero_two : npStd 2 ![0, 2] = 1 := by
  unfold npStd npMean
  rw [Fin.sum_univ_two, Fin.sum_univ_two, Real.sqrt_eq_one]
  norm_num

/-- Concrete instantiation of `normalizeAdv_mean_zero_std_one` on the batch
`[0, 2]`. -/
theorem normalizeAdv_mean_zero_std_one_witness :
    1 ≤ 2 ∧ npStd 2 ![0, 2] ≠ 0 ∧
      (npMean 2 (normalizeAdv 2 ![0, 2]) = 0 ∧
        npStd 2 (normalizeAdv 2 ![0, 2]) = 1) :=
  ⟨by omega, by rw [npStd_pair_zero_two]; exact one_ne_zero,
    normalizeAdv_mean_zero_std_one 2 (by omega) ![0, 2]
      (by rw [npStd_pair_zero_two]; exact one_ne_zero)⟩

/-! ## Action-bound assertion at setup (`ppo_hproj.py`, line
`assert np.all(act_bound == -env.action_space.low)`)

The assertion compares the float bound vectors exactly; bounds are modelled
over `ℚ` so the comparison stays decidable and executable. The policy graph
built after the assertion is abstracted to the data the assertion guards:
the symmetric action bound handed to the policy. -/

/-- The policy computation graph built after the bound assertion (mean MLP,
scale variable, clamped std); abstracted to the action bound it is built
with. -/
structure PolicyGraph (d : ℕ) where
  actBound : Fin d → ℚ

/-- The exact elementwise comparison `np.all(act_bound == -low)`. -/
def checkActBounds (d : ℕ) (high low : Fin d → ℚ) : Bool :=
  decide (∀ i, high i = - low i)

/-- The assertion message of the failing `assert` statement. -/
def assertMsg : String := "assert np.all(act_bound == -env.action_space.low)"

/-- Setup of `main`: the assertion runs before the policy graph is built; the
error branch constructs nothing. -/
def buildSetup (d : ℕ) (high low : Fin d → ℚ) : Except String (PolicyGraph d) :=
  if checkActBounds d high low then .ok ⟨high⟩ else .error assertMsg

/-- `main` after setup: on success the training loop runs for `maxiter`
iterations; on assertion failure training never starts. The result records
the graph and the number of iterations executed. -/
def mainRun (d : ℕ) (high low : Fin d → ℚ) (maxiter : ℕ) :
    Except String (PolicyGraph d × ℕ) :=
  match buildSetup d high low with
  | .error e => .error e
  | .ok g => .ok (g, maxiter)

/-- **C7.** If the action-space bounds are not symmetric around zero, setup
raises the assertion error before any graph is built and training never
starts; if they are symmetric, the assertion passes and setup continues into
the training loop. -/
theorem assert_symmetric_bounds (d : ℕ) (high low : Fin d → ℚ) (m : ℕ) :
    ((∃ i, high i ≠ - low i) → mainRun d high low m = .error assertMsg) ∧
      ((∀ i, high i = - low i) → mainRun d high low m = .ok (⟨high⟩, m)) := by
  constructor
  · rintro ⟨i, hi⟩
    have hnot : ¬ (∀ j, high j = - low j) := fun h => hi (h i)
    simp [mainRun, buildSetup, checkActBounds, hnot]
  · intro h
    simp [mainRun, buildSetup, checkActBounds, h]

/-- Concrete instantiation of `assert_symmetric_bounds`: bounds `[1]` vs
`[-2]` fail the assertion; bounds `[1]` vs `[-1]` pass it. -/
theorem assert_symmetric_bounds_witness :
    mainRun 1 ![1] ![-2] 5 = .error assertMsg ∧
      mainRun 1 ![1] ![-1] 5 = .ok (⟨![1]⟩, 5) :=
  ⟨(assert_symmetric_bounds 1 ![1] ![-2] 5).1 ⟨0, by decide⟩,
    (assert_symmetric_bounds 1 ![1] ![-1] 5).2 (by decide)⟩

/-! ## Per-iteration event structure of the trainer (`ppo_hproj.py`, main
loop)

One training iteration, in the order of the source: sample collection, the
value-function epochs (minibatch `optimize_v` steps), the advantage / TD
computation and normalization, the single `beta.load(entropy - beta_lin)`
with `beta_lin = 0.1`, the policy epochs (minibatch `optimize_pi` steps),
and the diagnostic report. -/

inductive TrainEvent where
  | collect
  | vOptimStep
  | advCompute
  | betaWrite (x : ℚ)
  | piOptimStep
  | report
  deriving DecidableEq

/-- `true` exactly on `betaWrite` events. -/
def TrainEvent.isBetaWrite : TrainEvent → Bool
  | .betaWrite _ => true
  | _ => false

/-- The event trace of one iteration of the training loop, given the epoch
counts, the number of minibatches per epoch, and the empirical policy entropy
`ent` measured this iteration. -/
def iterationTrace (epochsV epochsPi nBatches : ℕ) (ent : ℚ) : List TrainEvent :=
  [.collect]
    ++ List.replicate (epochsV * nBatches) .vOptimStep
    ++ [.advCompute]
    ++ [.betaWrite (ent - 1 / 10)]
    ++ List.replicate (epochsPi * nBatches) .piOptimStep
    ++ [.report]

/-- A tensorflow variable as the optimizer sees it: a value and its
`trainable` flag. `tf.train.AdamOptimizer(..).minimize` updates only
trainable variables. -/
structure TFVar where
  value : ℚ
  trainable : Bool

/-- One optimizer step on a variable: updates it only when it is trainable. -/
def optimizerStep (upd : ℚ → ℚ) (v : TFVar) : TFVar :=
  if v.trainable then { v with value := upd v.value } else v

/-- The `beta` variable, created with `trainable=False`. -/
def betaVar (init : ℚ) : TFVar := ⟨init, false⟩

/-- **C8.** In every training iteration, `beta` is written exactly once —
with value (empirical policy entropy − 0.1), before the policy-update epochs
begin — no other event of the iteration writes `beta`, and since `beta` is
non-trainable no optimizer step ever modifies it. -/
theorem beta_written_once_before_pi (ev ep nb : ℕ) (ent : ℚ) :
    (∃ pre post,
      iterationTrace ev ep nb ent = pre ++ .betaWrite (ent - 1 / 10) :: post ∧
        (∀ e ∈ pre, e.isBetaWrite = false ∧ e ≠ .piOptimStep) ∧
        (∀ e ∈ post, e.isBetaWrite = false)) ∧
      (∀ upd init, optimizerStep upd (betaVar init) = betaVar init) := by
  refine ⟨⟨[.collect] ++ List.replicate (ev * nb) .vOptimStep ++ [.advCompute],
    List.replicate (ep * nb) .piOptimStep ++ [.report], ?_, ?_, ?_⟩, ?_⟩
  · simp [iterationTrace]
  · intro e he
    simp only [List.mem_append, List.mem_singleton, List.mem_replicate] at he
    rcases he with (h | h) | h
    · subst h; exact ⟨rfl, by simp⟩
    · rw [h.2]; exact ⟨rfl, by simp⟩
    · subst h; exact ⟨rfl, by simp⟩
  · intro e he
    simp only [List.mem_append, List.mem_singleton, List.mem_replicate] at he
    rcases he with h | h
    · rw [h.2]; rfl
    · subst h; rfl
  · intro upd init
    rfl

/-! ## `MLP.reset` frame effect (`approximators.py`, `MLP.reset`)

`MLP.reset` assigns `self.vars[-2]` (the final dense layer's weight matrix)
and `self.vars[-1]` (its bias); the trainable-variable list of the scope is
otherwise untouched. Variables are modelled as an abstract list of parameter
values in the order `tf.trainable_variables` returns them. -/

/-- `MLP.reset` on the variable list: assign `vars[-2] := newLin` (the fresh
`1e-8`-noise weight matrix) and `vars[-1] := newBias` (the
`value * ones` bias). -/
def mlpResetVars {V : Type} (vars : List V) (newLin newBias : V) : List V :=
  (vars.set (vars.length - 2) newLin).set (vars.length - 1) newBias

/-- **C9.** `MLP.reset` modifies only the last two trainable variables (the
final layer's weight matrix and bias); every earlier parameter is unchanged,
and the variable list keeps its length. -/
theorem mlp_reset_frame {V : Type} (vars : List V) (nl nb : V)
    (h2 : 2 ≤ vars.length) :
    (mlpResetVars vars nl nb).length = vars.length ∧
      (∀ i, i < vars.length - 2 → (mlpResetVars vars nl nb)[i]? = vars[i]?) ∧
      (mlpResetVars vars nl nb)[vars.length - 2]? = some nl ∧
      (mlpResetVars vars nl nb)[vars.length - 1]? = some nb := by
  have hlt1 : vars.length - 1 < vars.length := by omega
  have hlt2 : vars.length - 2 < vars.length := by omega
  have hne : vars.length - 2 ≠ vars.length - 1 := by omega
  refine ⟨by simp [mlpResetVars], ?_, ?_, ?_⟩
  · intro i hi
    have h1 : vars.length - 2 ≠ i := by omega
    have h2' : vars.length - 1 ≠ i := by omega
    simp [mlpResetVars, List.getElem?_set_ne, h1, h2']
  · rw [mlpResetVars, List.getElem?_set_ne (show vars.length - 1 ≠ vars.length - 2 by omega),
      List.getElem?_set_eq_of_lt _ hlt2]
  · rw [mlpResetVars,
      List.getElem?_set_eq_of_lt _ (by simpa using hlt1)]

/-- Concrete instantiation of `mlp_reset_frame` on a four-variable list. -/
theorem mlp_reset_frame_witness :
    (mlpResetVars [10, 20, 30, 40] 7 8).length = 4 ∧
      (∀ i, i < 2 → (mlpResetVars [10, 20, 30, 40] 7 8)[i]? = [10, 20, 30, 40][i]?) ∧
      (mlpResetVars [10, 20, 30, 40] 7 8)[2]? = some 7 ∧
      (mlpResetVars [10, 20, 30, 40] 7 8)[3]? = some 8 :=
  mlp_reset_frame [10, 20, 30, 40] 7 8 (by decide)

/-! ## Dropout placement in the MLP forward pass (`approximators.py`,
`MLP.__init__`)

For each configured layer the loop runs `last_out = tf.layers.dense(...)`
and then, whenever `keep_prob is not None`,
`last_out = tf.nn.dropout(last_out, keep_prob)` — including after the final
layer. Dense layers are abstracted as functions on value vectors; each layer
carries the Bernoulli keep mask drawn for its dropout node. -/

/-- `tf.nn.dropout(x, keep_prob=p)` under a fixed keep mask: kept entries are
rescaled by `1/p`, dropped entries become `0`. -/
noncomputable def dropoutMask (p : ℝ) (mask : List Bool) (x : List ℝ) : List ℝ :=
  (x.zip mask).map fun vb => if vb.2 then vb.1 / p else 0

/-- The `MLP.__init__` forward loop: dense layer, then dropout whenever
`keep_prob` is not `None`. -/
noncomputable def mlpForward (keepProb : Option ℝ)
    (layers : List ((List ℝ → List ℝ) × List Bool)) (x : List ℝ) : List ℝ :=
  layers.foldl
    (fun acc fm =>
      match keepProb with
      | none => fm.1 acc
      | some p => dropoutMask p fm.2 (fm.1 acc)) x

/-- **C10.** When the MLP is constructed with a `keep_prob` value, dropout is
applied after every dense layer including the final output layer: the output
is the dropout of the last dense layer's output, so any sample whose final
keep mask is `false` at a coordinate has the network output itself zeroed
there. -/
theorem dropout_applied_after_final_layer (p : ℝ)
    (ls : List ((List ℝ → List ℝ) × List Bool)) (f : List ℝ → List ℝ)
    (m : List Bool) (x : List ℝ) :
    mlpForward (some p) (ls ++ [(f, m)]) x
        = dropoutMask p m (f (mlpForward (some p) ls x)) ∧
      ∀ i, i < (f (mlpForward (some p) ls x)).length → m[i]? = some false →
        (mlpForward (some p) (ls ++ [(f, m)]) x)[i]? = some 0 := by
  have hmain : mlpForward (some p) (ls ++ [(f, m)]) x
      = dropoutMask p m (f (mlpForward (some p) ls x)) := by
    unfold mlpForward
    rw [List.foldl_append]
    rfl
  refine ⟨hmain, ?_⟩
  intro i hi hm
  rw [hmain]
  unfold dropoutMask
  rw [List.getElem?_map]
  have hz : ((f (mlpForward (some p) ls x)).zip m)[i]?
      = some ((f (mlpForward (some p) ls x))[i], false) := by
    exact List.getElem?_zip_eq_some.mpr ⟨List.getElem?_eq_getElem hi, hm⟩
  rw [hz]
  rfl

/-- Concrete instantiation of `dropout_applied_after_final_layer`: a single
identity layer with keep mask `[false]` zeroes the output. -/
theorem dropout_applied_after_final_layer_witness :
    (0 : ℕ) < (id (mlpForward (some (1 / 2)) [] [5])).length ∧
      (mlpForward (some (1 / 2)) ([] ++ [(id, [false])]) [5])[0]? = some 0 :=
  ⟨by simp [mlpForward],
    (dropout_applied_after_final_layer (1 / 2) [] id [false] [5]).2 0
      (by simp [mlpForward]) rfl⟩

/-! ## Reset and the approximator outputs (`approximators.py`, the `reset`
methods)

Three structural cases of `reset` are embedded. Two-variable case
(`MLP.reset`, `Linear.reset` with bias): the final weight matrix becomes
`1e-8 * (np.random.rand(..) - 0.5)` for the drawn uniform sample `u`, and the
bias becomes `value * np.ones(..)`. Single-matrix row-0 case (`Quadratic`,
`Fourier`, `RFB`): the whole matrix becomes the same noise, then row `0` —
the weight of the prepended constant-1 feature — is overwritten with `value`
exactly. `Linear.reset` without bias (the `else` branch at
`approximators.py:105-108`): the single weight matrix becomes the pure
noise `resetNoise` and nothing else — no row is overwritten with `value`,
and the identity feature vector has no prepended constant-1 entry, so the
reset output is near `0` regardless of the requested `value`. -/

/-- The fresh near-zero weight matrix `1e-8 * (np.random.rand(n, m) - 0.5)`,
for uniform draw `u`. -/
def resetNoise (n m : ℕ) (u : Fin n → Fin m → ℝ) : Fin n → Fin m → ℝ :=
  fun j k => 1e-8 * (u j k - 0.5)

/-- The reset bias `value * np.ones(shape)`. -/
def resetBias (m : ℕ) (c : ℝ) : Fin m → ℝ := fun _ => c

/-- The single-matrix reset: noise everywhere, row `0` overwritten with the
constant (`new_val[0] = value`). -/
def resetSingleMatrix (n m : ℕ) (c : ℝ) (u : Fin (n + 1) → Fin m → ℝ) :
    Fin (n + 1) → Fin m → ℝ :=
  fun j k => if j = 0 then c else 1e-8 * (u j k - 0.5)

/-- Output of a dense layer with separate bias on activations `h`. -/
def denseOut (n m : ℕ) (h : Fin n → ℝ) (W : Fin n → Fin m → ℝ)
    (b : Fin m → ℝ) (k : Fin m) : ℝ :=
  (∑ j, h j * W j k) + b k

/-- Output of the no-bias linear map on a feature vector `phi`. -/
def linOut (n m : ℕ) (phi : Fin n → ℝ) (th : Fin n → Fin m → ℝ) (k : Fin m) : ℝ :=
  ∑ j, phi j * th j k

theorem reset_noise_abs_le (x : ℝ) (h0 : 0 ≤ x) (h1 : x < 1) :
    |1e-8 * (x - 0.5)| ≤ 1e-8 / 2 := by
  rw [abs_mul, abs_of_pos (show (0 : ℝ) < 1e-8 by norm_num)]
  have hx : |x - 0.5| ≤ 1 / 2 := abs_le.mpr ⟨by linarith, by linarith⟩
  calc (1e-8 : ℝ) * |x - 0.5| ≤ 1e-8 * (1 / 2) :=
        mul_le_mul_of_nonneg_left hx (by norm_num)
    _ = 1e-8 / 2 := by ring

/-- **C3 (amended).** After `reset(session, value=c)`, the output of an MLP,
a Linear with bias, a Quadratic, a Fourier or an RFB approximator is within a
small tolerance of `c` on every sample: in the two-variable case the output
deviates from `c` by at most `1e-8/2 · Σ|h_j|` over the last hidden
activations `h`, and in the single-matrix row-0 case (feature vector with
the prepended constant-1 entry) by at most `1e-8/2 · Σ|phi_{j+1}|` over the
non-bias features. A Linear without bias instead has its single matrix reset
to pure noise, so its output is within the same tolerance of `0`, not of
`c`. -/
theorem reset_output_near_constant (n m : ℕ) (c : ℝ)
    (u : Fin n → Fin m → ℝ) (hu : ∀ j k, 0 ≤ u j k ∧ u j k < 1)
    (u' : Fin (n + 1) → Fin m → ℝ) (hu' : ∀ j k, 0 ≤ u' j k ∧ u' j k < 1)
    (h : Fin n → ℝ) (phi : Fin (n + 1) → ℝ) (hphi : phi 0 = 1) (k : Fin m) :
    |denseOut n m h (resetNoise n m u) (resetBias m c) k - c|
        ≤ 1e-8 / 2 * ∑ j, |h j| ∧
      |linOut (n + 1) m phi (resetSingleMatrix n m c u') k - c|
        ≤ 1e-8 / 2 * ∑ i : Fin n, |phi i.succ| ∧
      |linOut n m h (resetNoise n m u) k - 0|
        ≤ 1e-8 / 2 * ∑ j, |h j| := by
  refine ⟨?_, ?_, ?_⟩
  · have ha : denseOut n m h (resetNoise n m u) (resetBias m c) k - c
        = ∑ j, h j * (1e-8 * (u j k - 0.5)) := by
      unfold denseOut resetNoise resetBias
      ring
    rw [ha]
    calc |∑ j, h j * (1e-8 * (u j k - 0.5))|
        ≤ ∑ j, |h j * (1e-8 * (u j k - 0.5))| :=
          Finset.abs_sum_le_sum_abs _ _
      _ ≤ ∑ j, |h j| * (1e-8 / 2) := by
          refine Finset.sum_le_sum fun j _ => ?_
          rw [abs_mul]
          exact mul_le_mul_of_nonneg_left
            (reset_noise_abs_le _ (hu j k).1 (hu j k).2) (abs_nonneg _)
      _ = 1e-8 / 2 * ∑ j, |h j| := by
          rw [← Finset.sum_mul, mul_comm]
  · have hb : linOut (n + 1) m phi (resetSingleMatrix n m c u') k - c
        = ∑ i : Fin n, phi i.succ * (1e-8 * (u' i.succ k - 0.5)) := by
      unfold linOut resetSingleMatrix
      rw [Fin.sum_univ_succ, hphi]
      simp only [Fin.succ_ne_zero, if_false, if_pos]
      ring
    rw [hb]
    calc |∑ i : Fin n, phi i.succ * (1e-8 * (u' i.succ k - 0.5))|
        ≤ ∑ i : Fin n, |phi i.succ * (1e-8 * (u' i.succ k - 0.5))| :=
          Finset.abs_sum_le_sum_abs _ _
      _ ≤ ∑ i : Fin n, |phi i.succ| * (1e-8 / 2) := by
          refine Finset.sum_le_sum fun i _ => ?_
          rw [abs_mul]
          exact mul_le_mul_of_nonneg_left
            (reset_noise_abs_le _ (hu' i.succ k).1 (hu' i.succ k).2) (abs_nonneg _)
      _ = 1e-8 / 2 * ∑ i : Fin n, |phi i.succ| := by
          rw [← Finset.sum_mul, mul_comm]
  · have hc : linOut n m h (resetNoise n m u) k - 0
        = ∑ j, h j * (1e-8 * (u j k - 0.5)) := by
      unfold linOut resetNoise
      ring
    rw [hc]
    calc |∑ j, h j * (1e-8 * (u j k - 0.5))|
        ≤ ∑ j, |h j * (1e-8 * (u j k - 0.5))| :=
          Finset.abs_sum_le_sum_abs _ _
      _ ≤ ∑ j, |h j| * (1e-8 / 2) := by
          refine Finset.sum_le_sum fun j _ => ?_
          rw [abs_mul]
          exact mul_le_mul_of_nonneg_left
            (reset_noise_abs_le _ (hu j k).1 (hu j k).2) (abs_nonneg _)
      _ = 1e-8 / 2 * ∑ j, |h j| := by
          rw [← Finset.sum_mul, mul_comm]

/-- **C3 counterexample.** A `Linear` approximator with `use_bias=False`
after `reset(session, value=3)`: its `reset` takes the `else` branch, which
writes only the noise matrix and never the requested value, and the identity
features have no constant-1 entry. On input `x = [1]` with uniform draw `0`
the output is exactly `-(1e-8/2)` — near `0`, not near the requested
constant `3` — exceeding the noise tolerance `1e-8/2 · Σ|x_j|` by almost
`3`. -/
theorem linear_no_bias_reset_not_near_constant :
    linOut 1 1 (fun _ => (1 : ℝ)) (resetNoise 1 1 fun _ _ => 0) 0 = -(1e-8 / 2) ∧
      ¬ (|linOut 1 1 (fun _ => (1 : ℝ)) (resetNoise 1 1 fun _ _ => 0) 0 - 3|
          ≤ 1e-8 / 2 * ∑ j : Fin 1, |(fun _ => (1 : ℝ)) j|) := by
  have hval : linOut 1 1 (fun _ => (1 : ℝ)) (resetNoise 1 1 fun _ _ => 0) 0
      = -(1e-8 / 2) := by
    unfold linOut resetNoise
    simp only [Fin.sum_univ_one]
    norm_num
  refine ⟨hval, ?_⟩
  rw [hval]
  simp only [Fin.sum_univ_one, abs_one, mul_one]
  rw [show -(1e-8 / 2) - (3 : ℝ) = -(3 + 1e-8 / 2) by ring, abs_neg,
    abs_of_pos (show (0 : ℝ) < 3 + 1e-8 / 2 by norm_num)]
  norm_num

/-- Concrete instantiation of `reset_output_near_constant`: one hidden unit
with activation `2`, uniform draws all `0`, feature vector constantly `1`,
reset constant `3`. -/
theorem reset_output_near_constant_witness :
    (∀ j k : Fin 1, 0 ≤ (fun _ _ => (0 : ℝ)) j k ∧ (fun _ _ => (0 : ℝ)) j k < 1) ∧
      (fun _ => (1 : ℝ)) (0 : Fin 2) = 1 ∧
      (|denseOut 1 1 (fun _ => 2) (resetNoise 1 1 fun _ _ => 0)
            (resetBias 1 3) 0 - 3|
          ≤ 1e-8 / 2 * ∑ j : Fin 1, |(fun _ => (2 : ℝ)) j| ∧
        |linOut 2 1 (fun _ => 1) (resetSingleMatrix 1 1 3 fun _ _ => 0) 0 - 3|
          ≤ 1e-8 / 2 * ∑ i : Fin 1, |(fun _ => (1 : ℝ)) i.succ| ∧
        |linOut 1 1 (fun _ => 2) (resetNoise 1 1 fun _ _ => 0) 0 - 0|
          ≤ 1e-8 / 2 * ∑ j : Fin 1, |(fun _ => (2 : ℝ)) j|) :=
  ⟨fun _ _ => ⟨le_refl 0, one_pos⟩, rfl,
    reset_output_near_constant 1 1 3 (fun _ _ => 0)
      (fun _ _ => ⟨le_refl 0, one_pos⟩) (fun _ _ => 0)
      (fun _ _ => ⟨le_refl 0, one_pos⟩) (fun _ => 2) (fun _ => 1) rfl 0⟩

/-! ## Feature-dimension invariants (`approximators.py`, `Quadratic.__init__`
and `RFB.__init__`)

`Quadratic` prepends a constant-1 column to the input `x` of trailing
dimension `d` and forms all products `y[k]*y[j]` for `k in range(d+1)`,
`j in range(k, d+1)`. `RFB` places one grid center per element of the
`d`-fold meshgrid of per-dimension `linspace`s of `n_centers` points each and
prepends a constant-1 bias feature to the Gaussian bumps. -/

/-- Entry `idx` of the augmented vector `[1, x]` (`tf.concat([1, x], 1)`),
over `ℕ` indices as the python loop traverses them. -/
noncomputable def augFeature (d : ℕ) (x : Fin d → ℝ) (idx : ℕ) : ℝ :=
  if h : idx < d + 1 then (Fin.cons 1 x : Fin (d + 1) → ℝ) ⟨idx, h⟩ else 0

/-- The Quadratic feature list
`[y[k]*y[j] for k in range(d+1) for j in range(k, d+1)]` over `y = [1, x]`. -/
noncomputable def quadFeatures (d : ℕ) (x : Fin d → ℝ) : List ℝ :=
  (List.range (d + 1)).flatMap fun k =>
    ((List.range (d + 1)).drop k).map fun j =>
      augFeature d x k * augFeature d x j

/-- `np.linspace(lo, hi, n)`: `n` evenly spaced points starting at `lo`. -/
noncomputable def linspace (lo hi : ℝ) (n : ℕ) : List ℝ :=
  (List.range n).map fun (i : ℕ) => lo + (i : ℝ) * ((hi - lo) / ((n : ℝ) - 1))

/-- The center placements of one input dimension:
`np.linspace(-m*0.1 + lo, hi + m*0.1, n)` with grid spacing
`m = (hi - lo) / n`. -/
noncomputable def rfbAxis (lo hi : ℝ) (n : ℕ) : List ℝ :=
  linspace (-((hi - lo) / n) * 0.1 + lo) (hi + ((hi - lo) / n) * 0.1) n

/-- The flattened meshgrid: cartesian product of the per-dimension axis
placements. -/
def gridProd : List (List ℝ) → List (List ℝ)
  | [] => [[]]
  | a :: rest => (gridProd rest).flatMap fun p => a.map fun v => v :: p

/-- The RFB center grid: `n_centers^d` points over the box
`[lo_i, hi_i]` per dimension. -/
noncomputable def rfbCenters (d n : ℕ) (lo hi : Fin d → ℝ) : List (List ℝ) :=
  gridProd ((List.finRange d).map fun i => rfbAxis (lo i) (hi i) n)

/-- Per-dimension bandwidth `sqrt(n² / (hi - lo)²)`. -/
noncomputable def rfbB (n : ℕ) (lo hi : ℝ) : ℝ :=
  Real.sqrt ((n : ℝ) ^ 2 / (hi - lo) ^ 2)

/-- One Gaussian bump: `exp(-Σ_i (x_i·B_i - c_i·B_i)²)`. -/
noncomputable def rfbBump (d n : ℕ) (lo hi : Fin d → ℝ) (x : Fin d → ℝ)
    (c : List ℝ) : ℝ :=
  Real.exp (-(∑ i, (x i * rfbB n (lo i) (hi i) - c.getD i 0 * rfbB n (lo i) (hi i)) ^ 2))

/-- The RFB feature vector: prepended constant-1 bias, then one Gaussian bump
per grid center. -/
noncomputable def rfbFeatures (d n : ℕ) (lo hi : Fin d → ℝ) (x : Fin d → ℝ) :
    List ℝ :=
  1 :: (rfbCenters d n lo hi).map (rfbBump d n lo hi x)

theorem sum_range_sub (n : ℕ) :
    ∑ k ∈ Finset.range n, (n - k) = n * (n + 1) / 2 := by
  have h1 : ∑ k ∈ Finset.range n, (n - k) = ∑ j ∈ Finset.range n, (j + 1) := by
    rw [← Finset.sum_range_reflect (fun j => j + 1) n]
    refine Finset.sum_congr rfl fun j hj => ?_
    rw [Finset.mem_range] at hj
    omega
  have h2 : ∑ k ∈ Finset.range (n + 1), k
      = (∑ k ∈ Finset.range n, (k + 1)) + 0 := Finset.sum_range_succ' (fun k => k) n
  have h3 : ∑ k ∈ Finset.range (n + 1), k = (n + 1) * n / 2 := by
    rw [Finset.sum_range_id, Nat.add_sub_cancel]
  have hcomm : n * (n + 1) = (n + 1) * n := by ring
  omega

theorem quadFeatures_length (d : ℕ) (x : Fin d → ℝ) :
    (quadFeatures d x).length = 1 + d + d * (d + 1) / 2 := by
  unfold quadFeatures
  rw [List.length_flatMap]
  have hmap : List.map
      (fun k => (((List.range (d + 1)).drop k).map fun j =>
        augFeature d x k * augFeature d x j).length) (List.range (d + 1))
      = List.map (fun k => d + 1 - k) (List.range (d + 1)) := by
    refine List.map_congr_left fun k _ => ?_
    rw [List.length_map, List.length_drop, List.length_range]
  have hbridge : (List.map (fun k => d + 1 - k) (List.range (d + 1))).sum
      = ∑ k ∈ Finset.range (d + 1), (d + 1 - k) := rfl
  rw [show (List.length ∘ fun k => ((List.range (d + 1)).drop k).map fun j =>
      augFeature d x k * augFeature d x j)
      = fun k => (((List.range (d + 1)).drop k).map fun j =>
        augFeature d x k * augFeature d x j).length from rfl]
  rw [hmap, hbridge, sum_range_sub]
  have he : d * (d + 1) = d * d + d := by ring
  have h12 : (d + 1) * (d + 1 + 1) = d * d + 3 * d + 2 := by ring
  omega

theorem gridProd_length (axes : List (List ℝ)) :
    (gridProd axes).length = (axes.map List.length).prod := by
  induction axes with
  | nil => rfl
  | cons a rest ih =>
    show ((gridProd rest).flatMap fun p => a.map fun v => v :: p).length = _
    rw [List.length_flatMap]
    have hconst : List.map (List.length ∘ fun p => a.map fun v => v :: p) (gridProd rest)
        = List.map (Function.const (List ℝ) a.length) (gridProd rest) := by
      refine List.map_congr_left fun p _ => ?_
      simp [Function.const]
    rw [hconst, List.map_const, List.sum_replicate, smul_eq_mul, ih]
    rw [List.map_cons, List.prod_cons]
    ring

theorem rfbCenters_length (d n : ℕ) (lo hi : Fin d → ℝ) :
    (rfbCenters d n lo hi).length = n ^ d := by
  unfold rfbCenters
  rw [gridProd_length]
  have haxes : ((List.finRange d).map fun i => rfbAxis (lo i) (hi i) n).map List.length
      = List.replicate d n := by
    rw [List.map_map]
    have : (List.length ∘ fun i => rfbAxis (lo i) (hi i) n)
        = Function.const (Fin d) n := by
      funext i
      show (rfbAxis (lo i) (hi i) n).length = n
      unfold rfbAxis linspace
      rw [List.length_map, List.length_range]
    rw [this, List.map_const, List.length_finRange]
  rw [haxes, List.prod_replicate]

/-- **C4.** The Quadratic approximator's feature vector on an input of
trailing dimension `d` has exactly `1 + d + d(d+1)/2` entries, and the RFB
approximator's feature vector with `n_centers` per dimension has exactly
`1 + n_centers^d` entries (constant-1 bias plus one bump per grid center). -/
theorem feature_dimension_invariants (d n : ℕ) (x : Fin d → ℝ)
    (lo hi : Fin d → ℝ) :
    (quadFeatures d x).length = 1 + d + d * (d + 1) / 2 ∧
      (rfbFeatures d n lo hi x).length = 1 + n ^ d := by
  refine ⟨quadFeatures_length d x, ?_⟩
  unfold rfbFeatures
  rw [List.length_cons, List.length_map, rfbCenters_length]
  omega

/-! ## Scope sharing across approximators (`approximators.py`, constructors)

`MLP`, `Linear` and `Quadratic` create their parameters through
`tf.layers.dense(..., name=str(l), reuse=tf.AUTO_REUSE)` inside
`tf.variable_scope(scope)`: the layer's kernel/bias are fetched from the
graph's variable store by name (`scope/l/kernel`, `scope/l/bias`) and created
only if absent. `Fourier` and `RFB` instead create `theta` with
`tf.Variable(...)`, which always creates a fresh variable object (uniquifying
its name) and never consults the store for reuse. The store is modelled as a
creation-ordered association list from names to parameter-object ids. -/

/-- The graph's variable store: creation-ordered `(name, id)` pairs plus the
next fresh id. An `id` stands for one underlying parameter object. -/
structure VarStore where
  vars : List (String × ℕ)
  nextId : ℕ

/-- The store of a fresh graph. -/
def emptyStore : VarStore := ⟨[], 0⟩

/-- Name lookup in the store (first registered match). -/
def findVar (s : VarStore) (name : String) : Option (String × ℕ) :=
  s.vars.find? fun p => p.1 = name

/-- `tf.get_variable` under `reuse=tf.AUTO_REUSE` (the path taken by
`tf.layers.dense`): return the variable registered under `name` when
present, otherwise create it. -/
def getVariable (s : VarStore) (name : String) : ℕ × VarStore :=
  match findVar s name with
  | some p => (p.2, s)
  | none => (s.nextId, ⟨s.vars ++ [(name, s.nextId)], s.nextId + 1⟩)

/-- `tf.Variable`: always creates a fresh variable object with a uniquified
name; never reuses. -/
def newVariable (s : VarStore) (name : String) : ℕ × VarStore :=
  (s.nextId, ⟨s.vars ++ [(name ++ "_" ++ toString s.nextId, s.nextId)], s.nextId + 1⟩)

/-- Sequential `get_variable` calls for a list of names, as a constructor
performs them. -/
def getVariables (s : VarStore) : List String → List ℕ × VarStore
  | [] => ([], s)
  | nm :: rest =>
    let r1 := getVariable s nm
    let r2 := getVariables r1.2 rest
    (r1.1 :: r2.1, r2.2)

/-- The variable names `MLP.__init__` touches: `scope/l/kernel` and
`scope/l/bias` for each layer index `l`. -/
def mlpVarNames (scope : String) (nLayers : ℕ) : List String :=
  (List.range nLayers).flatMap fun l =>
    [scope ++ "/" ++ toString l ++ "/kernel", scope ++ "/" ++ toString l ++ "/bias"]

/-- `MLP.__init__` on the variable store: fetch-or-create every layer
parameter in order, returning the parameter-object ids the instance ends up
holding. -/
def mlpBuildVars (s : VarStore) (scope : String) (nLayers : ℕ) :
    List ℕ × VarStore :=
  getVariables s (mlpVarNames scope nLayers)

/-- `Fourier.__init__` (and `RFB.__init__`) on the variable store: `theta`
is created with `tf.Variable` inside `tf.variable_scope(scope)`. -/
def fourierBuildTheta (s : VarStore) (scope : String) : ℕ × VarStore :=
  newVariable s (scope ++ "/Variable")

theorem find_after_append {vs t : List (String × ℕ)} {nm : String}
    {p : String × ℕ} (h : vs.find? (fun q => q.1 = nm) = some p) :
    (vs ++ t).find? (fun q => q.1 = nm) = some p := by
  rw [List.find?_append, h]
  rfl

theorem getVariable_found (s : VarStore) (nm : String) :
    ∃ p : String × ℕ,
      findVar (getVariable s nm).2 nm = some p ∧ p.2 = (getVariable s nm).1 := by
  unfold getVariable
  cases h : findVar s nm with
  | some p => exact ⟨p, h, rfl⟩
  | none =>
    refine ⟨(nm, s.nextId), ?_, rfl⟩
    unfold findVar at h ⊢
    rw [List.find?_append, h]
    simp

theorem getVariable_of_found (s : VarStore) (nm : String) (p : String × ℕ)
    (h : findVar s nm = some p) : getVariable s nm = (p.2, s) := by
  unfold getVariable
  rw [h]

theorem getVariable_vars_extend (s : VarStore) (nm : String) :
    ∃ t, (getVariable s nm).2.vars = s.vars ++ t := by
  unfold getVariable
  cases h : findVar s nm with
  | some p => exact ⟨[], (List.append_nil _).symm⟩
  | none => exact ⟨[(nm, s.nextId)], rfl⟩

theorem getVariables_vars_extend (s : VarStore) (names : List String) :
    ∃ t, (getVariables s names).2.vars = s.vars ++ t := by
  induction names generalizing s with
  | nil => exact ⟨[], (List.append_nil _).symm⟩
  | cons nm rest ih =>
    obtain ⟨t1, h1⟩ := getVariable_vars_extend s nm
    obtain ⟨t2, h2⟩ := ih (getVariable s nm).2
    refine ⟨t1 ++ t2, ?_⟩
    show (getVariables (getVariable s nm).2 rest).2.vars = _
    rw [h2, h1, List.append_assoc]

theorem getVariables_idem (names : List String) (s : VarStore) :
    getVariables (getVariables s names).2 names = getVariables s names := by
  induction names generalizing s with
  | nil => rfl
  | cons nm rest ih =>
    obtain ⟨p, hp, hpid⟩ := getVariable_found s nm
    obtain ⟨t, ht⟩ := getVariables_vars_extend (getVariable s nm).2 rest
    have hfound2 : findVar (getVariables (getVariable s nm).2 rest).2 nm = some p := by
      unfold findVar at hp ⊢
      rw [ht]
      exact find_after_append hp
    have hGet2 : getVariable (getVariables (getVariable s nm).2 rest).2 nm
        = ((getVariable s nm).1, (getVariables (getVariable s nm).2 rest).2) := by
      rw [getVariable_of_found _ _ _ hfound2, hpid]
    simp only [getVariables]
    rw [hGet2, ih (getVariable s nm).2]

/-- **C5 counterexample.** Two `Fourier` approximators constructed with the
same scope name `"pi"` on a fresh graph hold distinct `theta` parameter
objects: `tf.Variable` creates a fresh object each time, so sharing fails
for the `Fourier`/`RFB` variants. -/
theorem fourier_same_scope_distinct_params :
    (fourierBuildTheta (fourierBuildTheta emptyStore "pi").2 "pi").1
      ≠ (fourierBuildTheta emptyStore "pi").1 := by
  decide

/-- **C5 (amended).** Approximators whose parameters go through the
`tf.layers.dense` / `tf.get_variable(AUTO_REUSE)` path (MLP, and likewise
Linear and Quadratic) do share parameters: rebuilding with the same scope and
sizes from the store left by the first build returns the identical
parameter-object ids and leaves the store unchanged. -/
theorem mlp_same_scope_shares_params (scope : String) (L : ℕ) (s : VarStore) :
    mlpBuildVars (mlpBuildVars s scope L).2 scope L = mlpBuildVars s scope L :=
  getVariables_idem (mlpVarNames scope L) s

end Tensorl
